import Mathlib

/-!
Additional trust bundle manifest: filtering CA certificates.

A shallow embedding of `pkg/asset/manifests/additionaltrustbundleconfig.go`.

* Go `[]byte` values, and Go strings that carry input data, are lists of bytes
  (`Bytes`); the conversions `[]byte(s)` and `string(b)` are the identity on them.
  Text constants of the program (map keys, names, messages) are Lean strings.
* The standard-library and third-party functions the file calls
  (`pem.Decode`, `pem.EncodeToMemory`, `x509.ParseCertificate`, `yaml.Marshal`,
  `corev1.SchemeGroupVersion.String`) are fields of `Env`.
* A Go function returning `(value, error)` returns a pair of options; `none` is `nil`.
* The `for` loop of `parseCertificates` has no bound of its own, so the loop is a
  function of a fuel argument; each pass of the loop spends one unit and the result
  is `none` when the fuel runs out before the loop has returned.
-/

namespace Manifests

/-- Contents of a Go `[]byte`, or of a Go string holding data. -/
abbrev Bytes := List UInt8

/-- A Go `map[string]string`, as the list of its entries; `Option GoMap` adds the nil map. -/
abbrev GoMap := List (String × Bytes)

/-- Go `error` values that occur in the file. -/
inductive GoError where
  /-- Result of `fmt.Errorf` with the given text. -/
  | errorf (msg : String)
  /-- An error value made by a library (`x509`, `yaml`). -/
  | lib (detail : String)
  /-- Result of `errors.Wrapf(cause, ...)` with the formatted text. -/
  | wrapf (cause : GoError) (msg : String)
  deriving DecidableEq, Repr

/-- Type `pem.Block`. -/
structure Block where
  PemType : String
  Headers : List (String × String)
  Bytes : List UInt8
  deriving DecidableEq, Repr

/-- The part of `x509.Certificate` the file reads. -/
structure Certificate where
  IsCA : Bool
  deriving DecidableEq, Repr

/-- Type `metav1.TypeMeta`. -/
structure TypeMeta where
  APIVersion : String
  Kind : String
  deriving DecidableEq, Repr

/-- The fields of `metav1.ObjectMeta` the file sets. -/
structure ObjectMeta where
  Namespace : String
  Name : String
  deriving DecidableEq, Repr

/-- The fields of `corev1.ConfigMap` the file sets. -/
structure ConfigMap where
  TypeMeta : TypeMeta
  ObjectMeta : ObjectMeta
  Data : Option GoMap
  deriving DecidableEq, Repr

/-- Type `asset.File`. -/
structure File where
  Filename : String
  Data : Bytes
  deriving DecidableEq, Repr

/-- The external functions called by the file. -/
structure Env where
  /-- Function `pem.Decode`: the block found (or nil) and the remaining bytes. -/
  pemDecode : Bytes → Option Block × Bytes
  /-- Function `pem.EncodeToMemory`, followed by the conversion to a string. -/
  pemEncodeToMemory : Block → Bytes
  /-- Function `x509.ParseCertificate`: a certificate or an error. -/
  x509ParseCertificate : Bytes → Except GoError Certificate
  /-- Function `yaml.Marshal` on a config map: the bytes or an error. -/
  yamlMarshal : ConfigMap → Except GoError Bytes
  /-- Value of `corev1.SchemeGroupVersion.String()`. -/
  schemeGroupVersion : String

/-- Modelled from the spec: manifestDir, a constant of the package declared in another
file; the spec gives the output path as `manifests/user-ca-bundle-config.yaml`. -/
def manifestDir : String := "manifests"

/-- Function `filepath.Join` on two clean, non-empty elements. -/
def filepathJoin (a b : String) : String := a ++ "/" ++ b

def additionalTrustBundleConfigFileName : String :=
  filepathJoin manifestDir "user-ca-bundle-config.yaml"

def additionalTrustBundleConfigDataKey : String := "ca-bundle.crt"

def additionalTrustBundleConfigMapName : String := "user-ca-bundle"

/-- The asset: two pointers, nil until `Generate` sets them. -/
structure AdditionalTrustBundleConfig where
  ConfigMap : Option ConfigMap
  File : Option File
  deriving DecidableEq, Repr

/-- The part of `types.InstallConfig` the file reads. -/
structure InstallConfigData where
  AdditionalTrustBundle : Bytes
  deriving DecidableEq, Repr

/-- The asset `installconfig.InstallConfig`. -/
structure InstallConfig where
  Config : InstallConfigData
  deriving DecidableEq, Repr

/-- Method `Name`. -/
def Name : String := "Additional Trust Bundle Config"

/-- Text of the error made when `pem.Decode` returns no block. -/
def unableToParseMsg : String :=
  "unable to parse certificate, please check the additionalTrustBundle section of install-config.yaml"

/-- The two results of `parseCertificates`. -/
abbrev ParseResult := Option GoMap × Option GoError

/-- The `for` loop of `parseCertificates`, from the state `rest`, `sb`. -/
def parseLoop (env : Env) : Nat → Bytes → Bytes → Option ParseResult
  | 0, _, _ => none
  | fuel + 1, rest, sb =>
    match env.pemDecode rest with
    | (none, _) => some (none, some (GoError.errorf unableToParseMsg))
    | (some block, rest) =>
      match env.x509ParseCertificate block.Bytes with
      | .error err => some (none, some err)
      | .ok cert =>
        let sb := if cert.IsCA then sb ++ env.pemEncodeToMemory block else sb
        if rest.length = 0 then
          some (some [(additionalTrustBundleConfigDataKey, sb)], none)
        else parseLoop env fuel rest sb

/-- Function `parseCertificates`. -/
def parseCertificates (env : Env) (fuel : Nat) (certificates : Bytes) : Option ParseResult :=
  parseLoop env fuel certificates []

/-- The loop of `parseCertificates` with a counter of the blocks `pem.Decode` has returned. -/
def parseLoopCounted (env : Env) : Nat → Bytes → Bytes → Nat → Option (ParseResult × Nat)
  | 0, _, _, _ => none
  | fuel + 1, rest, sb, n =>
    match env.pemDecode rest with
    | (none, _) => some ((none, some (GoError.errorf unableToParseMsg)), n)
    | (some block, rest) =>
      match env.x509ParseCertificate block.Bytes with
      | .error err => some ((none, some err), n + 1)
      | .ok cert =>
        let sb := if cert.IsCA then sb ++ env.pemEncodeToMemory block else sb
        if rest.length = 0 then
          some ((some [(additionalTrustBundleConfigDataKey, sb)], none), n + 1)
        else parseLoopCounted env fuel rest sb (n + 1)

/-- Function `parseCertificates` with the count of decoded blocks. -/
def parseCertificatesCounted (env : Env) (fuel : Nat) (certificates : Bytes) :
    Option (ParseResult × Nat) :=
  parseLoopCounted env fuel certificates [] 0

/-- Method `Generate`: the asset afterwards and the error returned. -/
def Generate (env : Env) (fuel : Nat) (atbc : AdditionalTrustBundleConfig)
    (installConfig : InstallConfig) : Option (AdditionalTrustBundleConfig × Option GoError) :=
  if installConfig.Config.AdditionalTrustBundle = [] then some (atbc, none)
  else
    match parseCertificates env fuel installConfig.Config.AdditionalTrustBundle with
    | none => none
    | some (_, some err) => some (atbc, some err)
    | some (data, none) =>
      let cm : ConfigMap :=
        { TypeMeta := { APIVersion := env.schemeGroupVersion, Kind := "ConfigMap" }
          ObjectMeta := { Namespace := "openshift-config", Name := additionalTrustBundleConfigMapName }
          Data := data }
      match env.yamlMarshal cm with
      | .error err =>
        some (atbc, some (GoError.wrapf err ("failed to create " ++ Name ++ " manifest")))
      | .ok cmData =>
        some ({ ConfigMap := some cm
                File := some { Filename := additionalTrustBundleConfigFileName, Data := cmData } },
              none)

/-- Method `Files`. -/
def Files (atbc : AdditionalTrustBundleConfig) : List File :=
  match atbc.File with
  | some f => [f]
  | none => []

/-- Method `Load`. -/
def Load (_atbc : AdditionalTrustBundleConfig) : Bool × Option GoError := (false, none)

/-- A freshly allocated asset: both pointers nil. -/
def freshAsset : AdditionalTrustBundleConfig := { ConfigMap := none, File := none }

/-! ## Specification vocabulary -/

/-- Whether the parser accepts the payload of `b`. -/
def parses (env : Env) (b : Block) : Bool :=
  match env.x509ParseCertificate b.Bytes with
  | .ok _ => true
  | .error _ => false

/-- Whether the payload of `b` parses as a certificate with `IsCA` set. -/
def isCABlock (env : Env) (b : Block) : Bool :=
  match env.x509ParseCertificate b.Bytes with
  | .ok cert => cert.IsCA
  | .error _ => false

/-- Concatenation, in order, of the PEM encodings of the CA blocks among `bs`. -/
def caBundle (env : Env) (bs : List Block) : Bytes :=
  ((bs.filter (isCABlock env)).map env.pemEncodeToMemory).flatten

/-- Successive calls of the decoder, starting from `input`, return the blocks `bs` in
turn; bytes remain after each block that is followed by another, and `r` is what remains
after the last one. -/
def decodesTo (env : Env) : Bytes → List Block → Bytes → Prop
  | input, [], r => input = r
  | input, b :: bs, r =>
    (env.pemDecode input).1 = some b ∧ (bs ≠ [] → (env.pemDecode input).2 ≠ []) ∧
      decodesTo env (env.pemDecode input).2 bs r

instance decodesToDecidable (env : Env) :
    (input : Bytes) → (bs : List Block) → (r : Bytes) → Decidable (decodesTo env input bs r)
  | input, [], r => inferInstanceAs (Decidable (input = r))
  | input, b :: bs, r =>
    have := decodesToDecidable env (env.pemDecode input).2 bs r
    inferInstanceAs (Decidable ((env.pemDecode input).1 = some b ∧
      (bs ≠ [] → (env.pemDecode input).2 ≠ []) ∧ decodesTo env (env.pemDecode input).2 bs r))

/-! ## A small instance of the library interface

Used to evaluate the model on concrete inputs. It keeps the features of PEM framing
that matter to the loop: a frame is `<` payload `>`; the decoder skips everything
before the first `<`, and swallows one line feed after `>` when there is one; the
encoder always writes the line feed. A payload starting with byte 1 is a CA
certificate, one starting with byte 0 is a certificate that is not a CA, and any other
payload is rejected by the parser. -/

/-- Decoder of the small instance. -/
def demoDecode (data : Bytes) : Option Block × Bytes :=
  match data.dropWhile (fun c => c != 60) with
  | [] => (none, data)
  | _ :: body =>
    match body.span (fun c => c != 62) with
    | (_, []) => (none, data)
    | (payload, _ :: after) =>
      (some { PemType := "CERTIFICATE", Headers := [], Bytes := payload },
        match after with
        | 10 :: t => t
        | t => t)

/-- Encoder of the small instance. -/
def demoEncode (b : Block) : Bytes := 60 :: b.Bytes ++ [62, 10]

/-- Certificate parser of the small instance. -/
def demoParse : Bytes → Except GoError Certificate
  | 1 :: _ => .ok { IsCA := true }
  | 0 :: _ => .ok { IsCA := false }
  | _ => .error (GoError.lib "x509: malformed certificate")

/-- Serializer of the small instance: the value under the data key, or nothing. -/
def demoMarshal (cm : ConfigMap) : Except GoError Bytes :=
  match cm.Data with
  | some [(_, v)] => .ok v
  | _ => .ok []

/-- The small instance. -/
def demoEnv : Env :=
  { pemDecode := demoDecode
    pemEncodeToMemory := demoEncode
    x509ParseCertificate := demoParse
    yamlMarshal := demoMarshal
    schemeGroupVersion := "v1" }

/-- A CA block of the small instance. -/
def caBlock : Block := { PemType := "CERTIFICATE", Headers := [], Bytes := [1] }

/-- A non-CA block of the small instance. -/
def leafBlock : Block := { PemType := "CERTIFICATE", Headers := [], Bytes := [0] }

/-- A block of the small instance whose payload is not a certificate. -/
def badBlock : Block := { PemType := "CERTIFICATE", Headers := [], Bytes := [7] }

/-- The decoder of the small instance consumes at least one byte with every block. -/
theorem demoDecode_shrinks (x : Bytes) (b : Block) (h : (demoDecode x).1 = some b) :
    (demoDecode x).2.length < x.length := by
  have h1 : (x.dropWhile (fun c => c != 60)).length ≤ x.length :=
    (List.dropWhile_suffix (fun c => c != 60)).length_le
  unfold demoDecode at h ⊢
  cases hd : x.dropWhile (fun c => c != 60) with
  | nil => rw [hd] at h; simp at h
  | cons a body =>
    rw [hd] at h h1
    have h2 : (body.dropWhile (fun c => c != 62)).length ≤ body.length :=
      (List.dropWhile_suffix (fun c => c != 62)).length_le
    simp only [List.span_eq_take_drop] at h ⊢
    cases hs : body.dropWhile (fun c => c != 62) with
    | nil => rw [hs] at h; simp at h
    | cons c after =>
      rw [hs] at h2
      simp only [List.length_cons] at h1 h2
      simp only
      split
      · rename_i t
        simp only [List.length_cons] at h2
        omega
      · omega

/-! ## Lemmas on the loop -/

theorem caBundle_cons (env : Env) (b : Block) (bs : List Block) :
    caBundle env (b :: bs) = caBundle env [b] ++ caBundle env bs := by
  unfold caBundle
  by_cases h : isCABlock env b = true <;> simp [List.filter_cons, h]

theorem caBundle_nil (env : Env) : caBundle env [] = [] := by
  simp [caBundle]

/-- One pass of the loop on a block the parser accepts. -/
theorem parseLoop_pass (env : Env) (fuel : Nat) (rest sb : Bytes) (b : Block)
    (hd : (env.pemDecode rest).1 = some b) (hp : parses env b = true) :
    parseLoop env (fuel + 1) rest sb =
      if (env.pemDecode rest).2.length = 0 then
        some (some [(additionalTrustBundleConfigDataKey, sb ++ caBundle env [b])], none)
      else parseLoop env fuel (env.pemDecode rest).2 (sb ++ caBundle env [b]) := by
  rcases hdec : env.pemDecode rest with ⟨o, r⟩
  rw [hdec] at hd
  simp only at hd
  subst hd
  unfold parses at hp
  rw [parseLoop, hdec]
  simp only
  cases hx : env.x509ParseCertificate b.Bytes with
  | error e => rw [hx] at hp; simp at hp
  | ok c =>
    have hb : caBundle env [b] = if c.IsCA = true then env.pemEncodeToMemory b else [] := by
      unfold caBundle isCABlock
      cases hc : c.IsCA <;> simp [List.filter_cons, hx, hc]
    simp only [hb]
    cases hc : c.IsCA <;> simp

/-- The loop on an input from which the blocks `bs` are decoded in turn, all accepted by
the parser: after `bs.length` passes it has returned the bundle of `bs` when nothing
remains, and otherwise goes on from the remainder. -/
theorem parseLoop_decodesTo (env : Env) :
    ∀ (bs : List Block) (input sb r : Bytes) (fuel : Nat), bs ≠ [] →
      decodesTo env input bs r → (∀ b ∈ bs, parses env b = true) →
      parseLoop env (bs.length + fuel) input sb =
        if r.length = 0 then
          some (some [(additionalTrustBundleConfigDataKey, sb ++ caBundle env bs)], none)
        else parseLoop env fuel r (sb ++ caBundle env bs) := by
  intro bs
  induction bs with
  | nil => intro _ _ _ _ h; exact absurd rfl h
  | cons b bs ih =>
    intro input sb r fuel _ hchain hparse
    obtain ⟨hd, hrem, htail⟩ := hchain
    have hb : parses env b = true := hparse b (List.mem_cons_self _ _)
    have hlen : (b :: bs).length + fuel = (bs.length + fuel) + 1 := by
      simp only [List.length_cons]; omega
    rw [hlen, parseLoop_pass env _ input sb b hd hb]
    by_cases hbs : bs = []
    · subst hbs
      have hr : (env.pemDecode input).2 = r := htail
      simp [hr]
    · have hne : (env.pemDecode input).2.length ≠ 0 := by
        intro h0
        exact hrem hbs (List.length_eq_zero.mp h0)
      rw [if_neg hne, ih _ _ r fuel hbs htail
        (fun x hx => hparse x (List.mem_cons_of_mem _ hx)), caBundle_cons env b bs]
      simp [List.append_assoc]

/-- Shape of what the loop returns: the one-entry map and no error, or no map and an
error. -/
theorem parseLoop_shape (env : Env) :
    ∀ (fuel : Nat) (rest sb : Bytes) (ret : ParseResult),
      parseLoop env fuel rest sb = some ret →
      (∃ v, ret = (some [(additionalTrustBundleConfigDataKey, v)], none)) ∨
        (∃ e, ret = (none, some e)) := by
  intro fuel
  induction fuel with
  | zero => intro rest sb ret h; simp [parseLoop] at h
  | succ n ih =>
    intro rest sb ret h
    rw [parseLoop] at h
    rcases hdec : env.pemDecode rest with ⟨o, r⟩
    rw [hdec] at h
    cases o with
    | none =>
      simp only [Option.some.injEq] at h
      exact Or.inr ⟨_, h.symm⟩
    | some b =>
      simp only at h
      cases hx : env.x509ParseCertificate b.Bytes with
      | error e =>
        rw [hx] at h
        simp only [Option.some.injEq] at h
        exact Or.inr ⟨_, h.symm⟩
      | ok c =>
        rw [hx] at h
        simp only at h
        split at h
        · simp only [Option.some.injEq] at h
          exact Or.inl ⟨_, h.symm⟩
        · exact ih _ _ _ h

/-- A run of the loop that returns a map has decoded a sequence of blocks, all accepted
by the parser, that ends with nothing remaining. -/
theorem parseLoop_success_decodesTo (env : Env) :
    ∀ (fuel : Nat) (rest sb : Bytes) (m : GoMap) (e : Option GoError),
      parseLoop env fuel rest sb = some (some m, e) →
      ∃ bs, bs ≠ [] ∧ decodesTo env rest bs [] ∧ (∀ b ∈ bs, parses env b = true) ∧
        bs.length ≤ fuel := by
  intro fuel
  induction fuel with
  | zero => intro rest sb m e h; simp [parseLoop] at h
  | succ n ih =>
    intro rest sb m e h
    rw [parseLoop] at h
    rcases hdec : env.pemDecode rest with ⟨o, r⟩
    rw [hdec] at h
    cases o with
    | none => simp at h
    | some b =>
      simp only at h
      cases hx : env.x509ParseCertificate b.Bytes with
      | error err => rw [hx] at h; simp at h
      | ok c =>
        have hb : parses env b = true := by simp [parses, hx]
        rw [hx] at h
        simp only at h
        split at h
        · rename_i h0
          refine ⟨[b], by simp, ?_, ?_, by simp⟩
          · refine ⟨by rw [hdec], fun hh => absurd rfl hh, ?_⟩
            show (env.pemDecode rest).2 = []
            rw [hdec]
            exact List.length_eq_zero.mp h0
          · intro x hx'
            rw [List.mem_singleton.mp hx']
            exact hb
        · rename_i h0
          obtain ⟨bs, hne, hch, hps, hl⟩ := ih _ _ _ _ h
          refine ⟨b :: bs, by simp, ?_, ?_, by simp only [List.length_cons]; omega⟩
          · refine ⟨by rw [hdec], fun _ => ?_, ?_⟩
            · rw [hdec]
              intro hr
              have hr2 : r = [] := hr
              exact h0 (by simp [hr2])
            · rw [hdec]; exact hch
          · intro x hx'
            rcases List.mem_cons.mp hx' with rfl | hx'
            · exact hb
            · exact hps x hx'

/-- The counted loop returns what the loop returns. -/
theorem parseLoopCounted_fst (env : Env) :
    ∀ (fuel : Nat) (rest sb : Bytes) (n : Nat),
      (parseLoopCounted env fuel rest sb n).map Prod.fst = parseLoop env fuel rest sb := by
  intro fuel
  induction fuel with
  | zero => intro rest sb n; simp [parseLoop, parseLoopCounted]
  | succ k ih =>
    intro rest sb n
    rw [parseLoop, parseLoopCounted]
    rcases hdec : env.pemDecode rest with ⟨o, r⟩
    cases o with
    | none => simp
    | some b =>
      simp only
      cases hx : env.x509ParseCertificate b.Bytes with
      | error err => simp
      | ok c =>
        simp only
        split
        · simp
        · exact ih _ _ _

/-- The counter of the counted loop only grows, and grows when a map is returned. -/
theorem parseLoopCounted_count (env : Env) :
    ∀ (fuel : Nat) (rest sb : Bytes) (n : Nat) (ret : ParseResult) (k : Nat),
      parseLoopCounted env fuel rest sb n = some (ret, k) →
      n ≤ k ∧ (ret.1 ≠ none → n + 1 ≤ k) := by
  intro fuel
  induction fuel with
  | zero => intro rest sb n ret k h; simp [parseLoopCounted] at h
  | succ j ih =>
    intro rest sb n ret k h
    rw [parseLoopCounted] at h
    rcases hdec : env.pemDecode rest with ⟨o, r⟩
    rw [hdec] at h
    cases o with
    | none =>
      simp only [Option.some.injEq, Prod.mk.injEq] at h
      obtain ⟨h1, h2⟩ := h
      subst h1 h2
      simp
    | some b =>
      simp only at h
      cases hx : env.x509ParseCertificate b.Bytes with
      | error err =>
        rw [hx] at h
        simp only [Option.some.injEq, Prod.mk.injEq] at h
        obtain ⟨h1, h2⟩ := h
        subst h1 h2
        simp
      | ok c =>
        rw [hx] at h
        simp only at h
        split at h
        · simp only [Option.some.injEq, Prod.mk.injEq] at h
          obtain ⟨h1, h2⟩ := h
          subst h1 h2
          simp
        · have := ih _ _ _ _ _ h
          exact ⟨by omega, fun _ => by omega⟩

/-- Under a decoder that consumes at least one byte with every block, the counted loop
returns when the fuel covers the input, after at most one block per input byte. -/
theorem parseLoopCounted_terminates (env : Env)
    (hshrink : ∀ x b, (env.pemDecode x).1 = some b → (env.pemDecode x).2.length < x.length) :
    ∀ (fuel : Nat) (rest sb : Bytes) (n : Nat), 1 ≤ fuel → rest.length ≤ fuel →
      ∃ ret k, parseLoopCounted env fuel rest sb n = some (ret, k) ∧ k ≤ n + rest.length := by
  intro fuel
  induction fuel with
  | zero => intro rest sb n h; omega
  | succ j ih =>
    intro rest sb n _ hlen
    rw [parseLoopCounted]
    rcases hdec : env.pemDecode rest with ⟨o, r⟩
    cases o with
    | none => exact ⟨_, _, rfl, by omega⟩
    | some b =>
      have hs := hshrink rest b (by rw [hdec])
      rw [hdec] at hs
      simp only at hs
      simp only
      cases hx : env.x509ParseCertificate b.Bytes with
      | error err => exact ⟨_, _, rfl, by omega⟩
      | ok c =>
        simp only
        split
        · exact ⟨_, _, rfl, by omega⟩
        · rename_i h0
          obtain ⟨ret, k, hk, hb⟩ := ih r
            (if c.IsCA = true then sb ++ env.pemEncodeToMemory b else sb) (n + 1)
            (by omega) (by omega)
          exact ⟨ret, k, hk, by omega⟩

/-- A pass of the loop on a block the parser rejects returns the parser's error. -/
theorem parseLoop_reject (env : Env) (fuel : Nat) (rest sb : Bytes) (b : Block) (e : GoError)
    (hd : (env.pemDecode rest).1 = some b)
    (hrej : env.x509ParseCertificate b.Bytes = .error e) :
    parseLoop env (fuel + 1) rest sb = some (none, some e) := by
  rcases hdec : env.pemDecode rest with ⟨o, r⟩
  rw [hdec] at hd
  simp only at hd
  subst hd
  rw [parseLoop, hdec]
  simp only
  rw [hrej]

/-- A pass of the loop on bytes from which no block is decoded returns the parse error. -/
theorem parseLoop_no_block (env : Env) (fuel : Nat) (rest sb : Bytes)
    (hd : (env.pemDecode rest).1 = none) :
    parseLoop env (fuel + 1) rest sb = some (none, some (GoError.errorf unableToParseMsg)) := by
  rcases hdec : env.pemDecode rest with ⟨o, r⟩
  rw [hdec] at hd
  simp only at hd
  subst hd
  rw [parseLoop, hdec]

/-- A chain of blocks that ends with `b` is a chain up to the bytes `b` is decoded from,
and bytes remain there when the chain before `b` is not empty. -/
theorem decodesTo_append_singleton (env : Env) (b : Block) :
    ∀ (pre : List Block) (input r : Bytes), decodesTo env input (pre ++ [b]) r →
      ∃ r0, decodesTo env input pre r0 ∧ (pre ≠ [] → r0 ≠ []) ∧
        (env.pemDecode r0).1 = some b := by
  intro pre
  induction pre with
  | nil =>
    intro input r h
    exact ⟨input, rfl, fun hh => absurd rfl hh, h.1⟩
  | cons p ps ih =>
    intro input r h
    obtain ⟨hd, hrem, htail⟩ := h
    obtain ⟨r0, hch, hr0, hb⟩ := ih _ _ htail
    refine ⟨r0, ⟨hd, ?_, hch⟩, ?_, hb⟩
    · intro _
      exact hrem (by simp)
    · intro _
      by_cases hps : ps = []
      · subst hps
        have h1 : (env.pemDecode input).2 = r0 := hch
        rw [← h1]
        exact hrem (by simp)
      · exact hr0 hps

/-- What `parseCertificates` returns without error is the one-entry map. -/
theorem parseCertificates_key_shape (env : Env) (fuel : Nat) (input : Bytes)
    (m : Option GoMap) (h : parseCertificates env fuel input = some (m, none)) :
    (∃ v, m = some [(additionalTrustBundleConfigDataKey, v)]) ∧
      m.map (fun entries => entries.map Prod.fst) = some [additionalTrustBundleConfigDataKey] := by
  rcases parseLoop_shape env fuel input [] _ h with ⟨v, hv⟩ | ⟨e, he⟩
  · simp only [Prod.mk.injEq, and_true] at hv
    subst hv
    exact ⟨⟨v, rfl⟩, rfl⟩
  · simp at he

/-! ## The claims -/

/-- C1: when the decoder splits the input into blocks `bs` (at least one) with nothing
remaining after the last, and the parser accepts every block, `parseCertificates`
returns, within `bs.length` passes, no error and the map whose value under
`ca-bundle.crt` is the concatenation, in input order, of the PEM encodings of the blocks
of `bs` that are CA certificates, repeated blocks included; the value is empty when no
block is a CA. -/
theorem parseCertificates_ca_bundle (env : Env) (input : Bytes) (bs : List Block)
    (fuel : Nat) (hne : bs ≠ []) (hsplit : decodesTo env input bs [])
    (hparse : ∀ b ∈ bs, parses env b = true) (hfuel : bs.length ≤ fuel) :
    parseCertificates env fuel input =
        some (some [("ca-bundle.crt",
          ((bs.filter (isCABlock env)).map env.pemEncodeToMemory).flatten)], none) ∧
      ((∀ b ∈ bs, isCABlock env b = false) →
        parseCertificates env fuel input = some (some [("ca-bundle.crt", [])], none)) := by
  obtain ⟨d, rfl⟩ : ∃ d, fuel = bs.length + d := ⟨fuel - bs.length, by omega⟩
  have hmain := parseLoop_decodesTo env bs input [] [] d hne hsplit hparse
  simp only [List.length_nil, if_true, List.nil_append] at hmain
  refine ⟨hmain, fun hno => ?_⟩
  have hnil : caBundle env bs = [] := by
    unfold caBundle
    rw [List.filter_eq_nil_iff.mpr (fun b hb => by simp [hno b hb])]
    rfl
  rw [parseCertificates, hmain, hnil]
  rfl

theorem parseCertificates_ca_bundle_witness :
    decodesTo demoEnv [60, 1, 62, 10, 60, 0, 62, 10, 60, 1, 62, 10]
        [caBlock, leafBlock, caBlock] [] ∧
      parseCertificates demoEnv 3 [60, 1, 62, 10, 60, 0, 62, 10, 60, 1, 62, 10] =
        some (some [("ca-bundle.crt", [60, 1, 62, 10, 60, 1, 62, 10])], none) :=
  ⟨by decide, (parseCertificates_ca_bundle demoEnv [60, 1, 62, 10, 60, 0, 62, 10, 60, 1, 62, 10]
    [caBlock, leafBlock, caBlock] 3 (by decide) (by decide) (by decide) (by decide)).1⟩

/-- C2: whenever `parseCertificates` returns without error, the map it returns has
exactly one entry, under the key `ca-bundle.crt`, whatever the value is. -/
theorem parseCertificates_single_key (env : Env) (fuel : Nat) (input : Bytes)
    (m : Option GoMap) (h : parseCertificates env fuel input = some (m, none)) :
    (∃ v, m = some [("ca-bundle.crt", v)]) ∧
      m.map (fun entries => entries.map Prod.fst) = some ["ca-bundle.crt"] := by
  exact parseCertificates_key_shape env fuel input m h

theorem parseCertificates_single_key_witness :
    parseCertificates demoEnv 1 [60, 0, 62, 10] = some (some [("ca-bundle.crt", [])], none) ∧
      (some [("ca-bundle.crt", ([] : Bytes))]).map (fun entries => entries.map Prod.fst)
        = some ["ca-bundle.crt"] :=
  ⟨by decide, (parseCertificates_single_key demoEnv 1 [60, 0, 62, 10]
    (some [("ca-bundle.crt", [])]) (by decide)).2⟩

/-- C3: when the decoder returns no block from the input, `parseCertificates` returns,
in its first pass, the nil map and the error "unable to parse certificate, ...", and
with no amount of fuel a map; and every run that returns a map has decoded at least one
block. -/
theorem parseCertificates_no_block (env : Env) (input : Bytes)
    (hnone : (env.pemDecode input).1 = none) :
    (∀ fuel, 0 < fuel → parseCertificates env fuel input = some (none, some (GoError.errorf
        "unable to parse certificate, please check the additionalTrustBundle section of install-config.yaml"))) ∧
      (∀ fuel m e, parseCertificates env fuel input ≠ some (some m, e)) ∧
      (∀ fuel input2 m e k,
        parseCertificatesCounted env fuel input2 = some ((some m, e), k) → 1 ≤ k) := by
  have hfirst : ∀ fuel, 0 < fuel → parseCertificates env fuel input =
      some (none, some (GoError.errorf unableToParseMsg)) := by
    intro fuel hf
    obtain ⟨d, rfl⟩ : ∃ d, fuel = d + 1 := ⟨fuel - 1, by omega⟩
    exact parseLoop_no_block env d input [] hnone
  refine ⟨hfirst, ?_, ?_⟩
  · intro fuel m e h
    cases fuel with
    | zero => simp [parseCertificates, parseLoop] at h
    | succ d =>
      rw [hfirst (d + 1) (by omega)] at h
      simp at h
  · intro fuel input2 m e k h
    have := (parseLoopCounted_count env fuel input2 [] 0 _ k h).2 (by simp)
    omega

theorem parseCertificates_no_block_witness :
    (demoEnv.pemDecode []).1 = none ∧
      parseCertificates demoEnv 1 [] = some (none, some (GoError.errorf
        "unable to parse certificate, please check the additionalTrustBundle section of install-config.yaml")) :=
  ⟨by decide, (parseCertificates_no_block demoEnv [] (by decide)).1 1 (by decide)⟩

/-- C4: when the decoder returns in turn the blocks `pre` and then `b`, the parser
accepts every block of `pre` and rejects `b` with error `e`, `parseCertificates` returns
the nil map and exactly `e`, whatever `pre` had put in the buffer. -/
theorem parseCertificates_rejected_block (env : Env) (input : Bytes) (pre : List Block)
    (b : Block) (r : Bytes) (e : GoError) (fuel : Nat)
    (hchain : decodesTo env input (pre ++ [b]) r)
    (hpre : ∀ x ∈ pre, parses env x = true)
    (hrej : env.x509ParseCertificate b.Bytes = .error e) (hfuel : pre.length < fuel) :
    parseCertificates env fuel input = some (none, some e) := by
  obtain ⟨r0, hch, hr0, hb⟩ := decodesTo_append_singleton env b pre input r hchain
  obtain ⟨d, rfl⟩ : ∃ d, fuel = pre.length + (d + 1) := ⟨fuel - pre.length - 1, by omega⟩
  by_cases hp : pre = []
  · subst hp
    have h0 : input = r0 := hch
    subst h0
    simp only [List.length_nil, Nat.zero_add]
    exact parseLoop_reject env d input [] b e hb hrej
  · have hlen : r0.length ≠ 0 := fun h => hr0 hp (List.length_eq_zero.mp h)
    rw [parseCertificates, parseLoop_decodesTo env pre input [] r0 (d + 1) hp hch hpre,
      if_neg hlen]
    exact parseLoop_reject env d r0 _ b e hb hrej

theorem parseCertificates_rejected_block_witness :
    decodesTo demoEnv [60, 1, 62, 10, 60, 7, 62, 10, 60, 1, 62, 10] ([caBlock] ++ [badBlock])
        [60, 1, 62, 10] ∧
      parseCertificates demoEnv 2 [60, 1, 62, 10, 60, 7, 62, 10, 60, 1, 62, 10] =
        some (none, some (GoError.lib "x509: malformed certificate")) :=
  ⟨by decide, parseCertificates_rejected_block demoEnv
    [60, 1, 62, 10, 60, 7, 62, 10, 60, 1, 62, 10] [caBlock] badBlock [60, 1, 62, 10]
    (GoError.lib "x509: malformed certificate") 2 (by decide) (by decide) rfl
    (by decide)⟩

/-- Counterexample to C5 as stated: the input `<` 1 `>` without the final line feed is a single
CA block with nothing remaining, as a PEM certificate whose last line has no line break
is for `pem.Decode`, and the value returned is the encoder's text, which ends with the
line feed, not the input. -/
theorem parseCertificates_not_verbatim :
    decodesTo demoEnv [60, 1, 62] [caBlock] [] ∧ isCABlock demoEnv caBlock = true ∧
      parseCertificates demoEnv 1 [60, 1, 62] =
        some (some [("ca-bundle.crt", [60, 1, 62, 10])], none) ∧
      parseCertificates demoEnv 1 [60, 1, 62] ≠
        some (some [("ca-bundle.crt", [60, 1, 62])], none) :=
  ⟨by decide, by decide, by decide, by decide⟩

/-- C5, amended: when the decoder splits the input into blocks `bs` (at least one) with
nothing remaining, each a CA certificate, `parseCertificates` returns no error and the
value under `ca-bundle.crt` is the concatenation, in order, of the encoder's output for
the decoded blocks; it is the input itself when the input is that concatenation. -/
theorem parseCertificates_all_ca (env : Env) (input : Bytes) (bs : List Block)
    (fuel : Nat) (hne : bs ≠ []) (hsplit : decodesTo env input bs [])
    (hca : ∀ b ∈ bs, isCABlock env b = true) (hfuel : bs.length ≤ fuel) :
    parseCertificates env fuel input =
        some (some [("ca-bundle.crt", (bs.map env.pemEncodeToMemory).flatten)], none) ∧
      (input = (bs.map env.pemEncodeToMemory).flatten →
        parseCertificates env fuel input = some (some [("ca-bundle.crt", input)], none)) := by
  obtain ⟨d, rfl⟩ : ∃ d, fuel = bs.length + d := ⟨fuel - bs.length, by omega⟩
  have hparse : ∀ b ∈ bs, parses env b = true := by
    intro b hb
    have h := hca b hb
    unfold isCABlock at h
    unfold parses
    cases hx : env.x509ParseCertificate b.Bytes with
    | error e => rw [hx] at h; simp at h
    | ok c => rfl
  have hmain := parseLoop_decodesTo env bs input [] [] d hne hsplit hparse
  simp only [List.length_nil, if_true, List.nil_append] at hmain
  have hall : caBundle env bs = (bs.map env.pemEncodeToMemory).flatten := by
    unfold caBundle
    rw [List.filter_eq_self.mpr hca]
  rw [hall] at hmain
  refine ⟨hmain, fun hin => ?_⟩
  rw [parseCertificates, hmain, ← hin]
  rfl

theorem parseCertificates_all_ca_witness :
    decodesTo demoEnv [60, 1, 62, 10, 60, 1, 62, 10] [caBlock, caBlock] [] ∧
      parseCertificates demoEnv 2 [60, 1, 62, 10, 60, 1, 62, 10] =
        some (some [("ca-bundle.crt", [60, 1, 62, 10, 60, 1, 62, 10])], none) :=
  ⟨by decide, (parseCertificates_all_ca demoEnv [60, 1, 62, 10, 60, 1, 62, 10]
    [caBlock, caBlock] 2 (by decide) (by decide) (by decide) (by decide)).2 (by decide)⟩

/-- C6: when `AdditionalTrustBundle` is empty, `Generate` returns no error and the asset
as it was, for every library and every amount of fuel, zero included, with which no call
of `parseCertificates` returns; on a fresh asset `Files` then gives the empty list. -/
theorem Generate_empty_bundle (env : Env) (fuel : Nat) (atbc : AdditionalTrustBundleConfig)
    (installConfig : InstallConfig)
    (hempty : installConfig.Config.AdditionalTrustBundle = []) :
    Generate env fuel atbc installConfig = some (atbc, none) ∧
      Generate env 0 atbc installConfig = some (atbc, none) ∧
      (Generate env fuel freshAsset installConfig).map (fun p => Files p.1) = some [] := by
  simp [Generate, hempty, Files, freshAsset]

theorem Generate_empty_bundle_witness :
    Generate demoEnv 0 freshAsset { Config := { AdditionalTrustBundle := [] } } =
      some (freshAsset, none) :=
  (Generate_empty_bundle demoEnv 0 freshAsset { Config := { AdditionalTrustBundle := [] } }
    rfl).1

/-- C7: when `AdditionalTrustBundle` is not empty, `parseCertificates` returns the map
`m` without error and the serializer returns `cmData` for the record, `Generate` returns
no error and sets `ConfigMap` to the record of kind `ConfigMap`, namespace
`openshift-config`, name `user-ca-bundle` and data `m`, one entry under `ca-bundle.crt`,
and `File` to the file `manifests/user-ca-bundle-config.yaml` holding `cmData`; `Files`
then returns that file alone. -/
theorem Generate_success (env : Env) (fuel : Nat) (atbc : AdditionalTrustBundleConfig)
    (installConfig : InstallConfig) (m : Option GoMap) (cm : ConfigMap) (cmData : Bytes)
    (hne : installConfig.Config.AdditionalTrustBundle ≠ [])
    (hparse : parseCertificates env fuel installConfig.Config.AdditionalTrustBundle =
      some (m, none))
    (hcm : cm = { TypeMeta := { APIVersion := env.schemeGroupVersion, Kind := "ConfigMap" }
                  ObjectMeta := { Namespace := "openshift-config", Name := "user-ca-bundle" }
                  Data := m })
    (hyaml : env.yamlMarshal cm = .ok cmData) :
    Generate env fuel atbc installConfig =
        some ({ ConfigMap := some cm
                File := some { Filename := "manifests/user-ca-bundle-config.yaml"
                               Data := cmData } }, none) ∧
      (∃ v, cm.Data = some [("ca-bundle.crt", v)]) ∧
      (Generate env fuel atbc installConfig).map (fun p => Files p.1) =
        some [{ Filename := "manifests/user-ca-bundle-config.yaml", Data := cmData }] := by
  have hname : additionalTrustBundleConfigFileName = "manifests/user-ca-bundle-config.yaml" := by
    decide
  have hcmn : additionalTrustBundleConfigMapName = "user-ca-bundle" := rfl
  have hgen : Generate env fuel atbc installConfig =
      some ({ ConfigMap := some cm
              File := some { Filename := "manifests/user-ca-bundle-config.yaml"
                             Data := cmData } }, none) := by
    subst hcm
    unfold Generate
    rw [if_neg hne, hparse]
    simp only [hcmn]
    rw [hyaml]
    simp only [hname]
  refine ⟨hgen, ?_, ?_⟩
  · obtain ⟨⟨v, hv⟩, _⟩ := parseCertificates_key_shape env fuel _ m hparse
    exact ⟨v, by rw [hcm, hv]; rfl⟩
  · rw [hgen]
    rfl

theorem Generate_success_witness :
    Generate demoEnv 1 freshAsset { Config := { AdditionalTrustBundle := [60, 1, 62] } } =
      some ({ ConfigMap := some
                { TypeMeta := { APIVersion := "v1", Kind := "ConfigMap" }
                  ObjectMeta := { Namespace := "openshift-config", Name := "user-ca-bundle" }
                  Data := some [("ca-bundle.crt", [60, 1, 62, 10])] }
              File := some { Filename := "manifests/user-ca-bundle-config.yaml"
                             Data := [60, 1, 62, 10] } }, none) :=
  (Generate_success demoEnv 1 freshAsset { Config := { AdditionalTrustBundle := [60, 1, 62] } }
    (some [("ca-bundle.crt", [60, 1, 62, 10])])
    { TypeMeta := { APIVersion := "v1", Kind := "ConfigMap" }
      ObjectMeta := { Namespace := "openshift-config", Name := "user-ca-bundle" }
      Data := some [("ca-bundle.crt", [60, 1, 62, 10])] }
    [60, 1, 62, 10] (by decide) (by decide) rfl rfl).1

/-- C8: when one or more blocks `bs` have been decoded in turn and accepted by the
parser and the bytes `r` that remain are not empty, `parseCertificates` goes on with the
loop from `r`, its buffer holding the bundle of `bs`; when no block is decoded from `r`
it returns the nil map and the error "unable to parse certificate", CA blocks in `bs` or
not. And every run that returns a map has decoded a sequence of blocks after which
nothing remains. -/
theorem parseCertificates_trailing_bytes (env : Env) (input : Bytes) (bs : List Block)
    (r : Bytes) (hne : bs ≠ []) (hchain : decodesTo env input bs r)
    (hparse : ∀ b ∈ bs, parses env b = true) (hr : r ≠ []) :
    (∀ fuel, parseCertificates env (bs.length + fuel) input =
        parseLoop env fuel r (caBundle env bs)) ∧
      ((env.pemDecode r).1 = none → ∀ fuel, bs.length < fuel →
        parseCertificates env fuel input =
          some (none, some (GoError.errorf unableToParseMsg))) ∧
      (∀ fuel input2 m e, parseCertificates env fuel input2 = some (some m, e) →
        ∃ bs2, bs2 ≠ [] ∧ decodesTo env input2 bs2 [] ∧ ∀ b ∈ bs2, parses env b = true) := by
  have hlen : r.length ≠ 0 := fun h => hr (List.length_eq_zero.mp h)
  have hgo : ∀ fuel, parseCertificates env (bs.length + fuel) input =
      parseLoop env fuel r (caBundle env bs) := by
    intro fuel
    rw [parseCertificates, parseLoop_decodesTo env bs input [] r fuel hne hchain hparse,
      if_neg hlen, List.nil_append]
  refine ⟨hgo, ?_, ?_⟩
  · intro hnone fuel hfuel
    obtain ⟨d, rfl⟩ : ∃ d, fuel = bs.length + (d + 1) := ⟨fuel - bs.length - 1, by omega⟩
    rw [hgo]
    exact parseLoop_no_block env d r _ hnone
  · intro fuel input2 m e h
    obtain ⟨bs2, h1, h2, h3, _⟩ := parseLoop_success_decodesTo env fuel input2 [] m e h
    exact ⟨bs2, h1, h2, h3⟩

theorem parseCertificates_trailing_bytes_witness :
    decodesTo demoEnv [60, 1, 62, 10, 32] [caBlock] [32] ∧
      parseCertificates demoEnv 2 [60, 1, 62, 10, 32] =
        some (none, some (GoError.errorf unableToParseMsg)) :=
  ⟨by decide, (parseCertificates_trailing_bytes demoEnv [60, 1, 62, 10, 32] [caBlock] [32]
    (by decide) (by decide) (by decide) (by decide)).2.1 (by decide) 2 (by decide)⟩

/-- C9: when `AdditionalTrustBundle` is not empty and `parseCertificates` returns the
error `e`, `Generate` returns `e` itself and the asset as it was; on a fresh asset
`Files` then gives the empty list. -/
theorem Generate_parse_error (env : Env) (fuel : Nat) (atbc : AdditionalTrustBundleConfig)
    (installConfig : InstallConfig) (m : Option GoMap) (e : GoError)
    (hne : installConfig.Config.AdditionalTrustBundle ≠ [])
    (hparse : parseCertificates env fuel installConfig.Config.AdditionalTrustBundle =
      some (m, some e)) :
    Generate env fuel atbc installConfig = some (atbc, some e) ∧
      (atbc = freshAsset →
        (Generate env fuel atbc installConfig).map (fun p => Files p.1) = some []) := by
  have hgen : Generate env fuel atbc installConfig = some (atbc, some e) := by
    unfold Generate
    rw [if_neg hne, hparse]
  refine ⟨hgen, fun hfresh => ?_⟩
  rw [hgen, hfresh]
  rfl

theorem Generate_parse_error_witness :
    Generate demoEnv 2 freshAsset
        { Config := { AdditionalTrustBundle := [60, 1, 62, 10, 60, 7, 62, 10] } } =
      some (freshAsset, some (GoError.lib "x509: malformed certificate")) :=
  (Generate_parse_error demoEnv 2 freshAsset
    { Config := { AdditionalTrustBundle := [60, 1, 62, 10, 60, 7, 62, 10] } } none
    (GoError.lib "x509: malformed certificate") (by decide) (by decide)).1

/-- C10: under a decoder whose remainder is strictly shorter than its argument whenever
it returns a block, `parseCertificates` returns on every input, within as many passes as
the input has bytes (one pass for the empty input), either a map and no error or no map
and an error, and the number of blocks it has decoded is at most the length of the
input. -/
theorem parseCertificates_terminates (env : Env)
    (hshrink : ∀ x b, (env.pemDecode x).1 = some b →
      (env.pemDecode x).2.length < x.length)
    (input : Bytes) (fuel : Nat) (hfuel : max 1 input.length ≤ fuel) :
    ∃ ret k, parseCertificates env fuel input = some ret ∧
      parseCertificatesCounted env fuel input = some (ret, k) ∧ k ≤ input.length ∧
      ((∃ m, ret = (some m, none)) ∨ (∃ e, ret = (none, some e))) := by
  obtain ⟨ret, k, hk, hb⟩ := parseLoopCounted_terminates env hshrink fuel input [] 0
    (le_trans (le_max_left _ _) hfuel) (le_trans (le_max_right _ _) hfuel)
  have hret : parseCertificates env fuel input = some ret := by
    rw [parseCertificates, ← parseLoopCounted_fst env fuel input [] 0, hk]
    rfl
  refine ⟨ret, k, hret, hk, by omega, ?_⟩
  rcases parseLoop_shape env fuel input [] ret hret with ⟨v, hv⟩ | ⟨e, he⟩
  · exact Or.inl ⟨_, hv⟩
  · exact Or.inr ⟨e, he⟩

theorem parseCertificates_terminates_witness :
    (∀ x b, (demoEnv.pemDecode x).1 = some b → (demoEnv.pemDecode x).2.length < x.length) ∧
      ∃ ret k, parseCertificates demoEnv 4 [60, 1, 62, 10] = some ret ∧
        parseCertificatesCounted demoEnv 4 [60, 1, 62, 10] = some (ret, k) ∧
        k ≤ [60, 1, 62, (10 : UInt8)].length ∧
        ((∃ m, ret = (some m, none)) ∨ (∃ e, ret = (none, some e))) :=
  ⟨demoDecode_shrinks, parseCertificates_terminates demoEnv demoDecode_shrinks
    [60, 1, 62, 10] 4 (by decide)⟩

end Manifests
